import Mathlib

/-
Verification of the Pastry DHT overlay implementation.

Shallow embedding of the repository's Rust code:
machine integers (u64, usize) are modelled as Nat; all arithmetic that the
source performs on u64 values stays below 2^64 at every call site modelled
here, so plain Nat arithmetic coincides with the machine arithmetic
(checked subtraction panics are modelled explicitly where they can fire).
Loops are modelled as fuel-indexed structural recursions so that every
definition evaluates inside the kernel; each entry point passes a fuel that
dominates the loop's iteration count, so the fuel-exhausted branches are
unreachable from the entry points.
-/

namespace PastryVerify

/-! # Definitions -/

/-! ## Ring arithmetic: src/internal/hring/ring.rs, impl Ring<u64> for Ring64 -/

/-- u64::max_value() -/
def U64MAX : Nat := 2 ^ 64 - 1

/-- Ring64::counter_clockwise_distance: if a > b then a - b
else (u64::max_value() - b) + a.  For a, b < 2^64 neither branch
over- or under-flows, so Nat arithmetic matches the machine exactly. -/
def counter_clockwise_distance (a b : Nat) : Nat :=
  if b < a then a - b else (U64MAX - b) + a

/-- Ring64::distance: min of the counter-clockwise distances in both
directions. -/
def distance (a b : Nat) : Nat :=
  min (counter_clockwise_distance a b) (counter_clockwise_distance b a)

/-- Ring64::is_in_range:
(from < to && (from <= value && value < to)) ||
(from > to && (from <= value || value < to)). -/
def is_in_range (lo hi v : Nat) : Bool :=
  (decide (lo < hi) && (decide (lo ≤ v) && decide (v < hi))) ||
  (decide (hi < lo) && (decide (lo ≤ v) || decide (v < hi)))

/-! ## Hex digits and matched digits: src/src/util.rs -/

/-- get_nth_digit_in_u64_hex: Err for n ≥ 16 (modelled as none), otherwise
(num >> (64 − (n+1)·4)) & 0xF. -/
def get_nth_digit_in_u64_hex (num n : Nat) : Option Nat :=
  if 16 ≤ n then none
  else some (num / 2 ^ (64 - (n + 1) * 4) % 16)

/-- The total value of get_nth_digit_in_u64_hex on its in-range arguments
n < 16 (every call modelled in this file is in range). -/
def hexDigit (num n : Nat) : Nat := num / 2 ^ (64 - (n + 1) * 4) % 16

/-- The loop of get_num_matched_digits: for i in 0..16, return Ok(i) at the
first index where the digits differ; if none differs return
Ok(U64_HEX_NUM_OF_DIGITS − 1) = Ok(15).  Err from the digit accessor
propagates (the bind), as the source's question-mark does. -/
def mdLoop (a b : Nat) : Nat → Nat → Option Nat
  | fuel, i =>
    if i < 16 then
      match fuel with
      | 0 => none
      | fuel + 1 =>
        (get_nth_digit_in_u64_hex a i).bind (fun da =>
          (get_nth_digit_in_u64_hex b i).bind (fun db =>
            if da ≠ db then some i else mdLoop a b fuel (i + 1)))
    else some 15

/-- get_num_matched_digits from src/src/util.rs. -/
def get_num_matched_digits (a b : Nat) : Option Nat := mdLoop a b 16 0

/-- Specification-side definition: the length of the longest common
base-16 prefix of the 16-hex-digit expansions of a and b. -/
def lcp16 (a b : Nat) : Nat :=
  ((List.range 16).takeWhile (fun i => hexDigit a i == hexDigit b i)).length

/-! ## Leaf set: src/src/pastry/leaf.rs (LeafSet, a CenteredRangeSet)

The source is generic over a PartialOrd key type T and a value type U; the
claims use it at T = u64 (node ids), U = node info.  The embedding takes
Nat keys and Nat values. -/

/-- KeyValuePair (src/src/pastry/leaf.rs and src/src/pastry/shared.rs). -/
structure KV where
  key : Nat
  value : Nat
deriving DecidableEq

/-- LeafSet: a fixed odd size and a vector of optional key-value pairs. -/
structure LeafSet where
  size : Nat
  set : List (Option KV)
deriving DecidableEq

/-- LeafSet::new: Err (none) unless size is odd and at least 3; otherwise
all-empty slots with the center pair at index size / 2. -/
def LeafSet.new (size centerKey centerValue : Nat) : Option LeafSet :=
  if size % 2 = 0 then none
  else if size < 3 then none
  else some ⟨size,
    (List.replicate size (none : Option KV)).set (size / 2)
      (some ⟨centerKey, centerValue⟩)⟩

/-- The binary-search loop of LeafSet::find_replace (while l < r).  Returns
(some m, _) on the early return at an exact key match, otherwise
(none, final l).  half is self.size / 2. -/
def frLoopFR (s : List (Option KV)) (half key : Nat) : Nat → Nat → Nat → Option Nat × Nat
  | fuel, l, r =>
    if l < r then
      match fuel with
      | 0 => (none, l)
      | fuel + 1 =>
        let m := (r - l) / 2 + l
        match s.getD m none with
        | some e =>
          if e.key < key then frLoopFR s half key fuel (m + 1) r
          else if key < e.key then
            (if m = 0 then (none, l) else frLoopFR s half key fuel l (m - 1))
          else (some m, l)
        | none =>
          if half < m then frLoopFR s half key fuel l (m - 1)
          else frLoopFR s half key fuel (m + 1) r
    else (none, l)

/-- LeafSet::find_replace: the loop, then the post-adjustment
(if set[l] is Some v with 0 < l < size/2 and v.key > key, l -= 1).
The loop shrinks r − l every iteration, so fuel = size suffices from the
entry point (l, r) = (0, size − 1). -/
def find_replace (ls : LeafSet) (key : Nat) : Nat :=
  match frLoopFR ls.set (ls.size / 2) key ls.size 0 (ls.size - 1) with
  | (some m, _) => m
  | (none, l) =>
    match ls.set.getD l none with
    | some v => if 0 < l ∧ l < ls.size / 2 ∧ key < v.key then l - 1 else l
    | none => l

/-- The displacement loop of LeafSet::insert: for i in range
{ temp = set[i].take(); set[i] = prev; prev = temp }. -/
def shiftChain (s : List (Option KV)) : List Nat → Option KV → List (Option KV)
  | [], _ => s
  | i :: rest, prev => shiftChain (s.set i prev) rest (s.getD i none)

/-- LeafSet::insert (the CenteredRangeSet impl). -/
def LeafSet.insert (ls : LeafSet) (key value : Nat) : LeafSet :=
  let idx := find_replace ls key
  let prev := ls.set.getD idx none
  let s1 := ls.set.set idx none
  let s2 :=
    if prev.isSome = true ∧ idx < ls.size - 1 ∧ 0 < idx then
      if ls.size / 2 < idx then
        shiftChain s1 (List.range' (idx + 1) (ls.size - (idx + 1))) prev
      else
        shiftChain s1 (List.range idx).reverse prev
    else s1
  ⟨ls.size, s2.set idx (some ⟨key, value⟩)⟩

/-- The binary-search loop of LeafSet::find_responsible (while l <= r).
Returns the final r: the early-return at an exact match sets r = m, the
break at m == 0 leaves r unchanged.  half is self.size / 2. -/
def frLoop (s : List (Option KV)) (half key : Nat) : Nat → Nat → Nat → Nat
  | fuel, l, r =>
    if l ≤ r then
      match fuel with
      | 0 => r
      | fuel + 1 =>
        match s.getD ((r - l) / 2 + l) none with
        | some e =>
          if e.key < key then frLoop s half key fuel ((r - l) / 2 + l + 1) r
          else if key < e.key then
            (if (r - l) / 2 + l = 0 then r
             else frLoop s half key fuel l ((r - l) / 2 + l - 1))
          else (r - l) / 2 + l
        | none =>
          if half < (r - l) / 2 + l then frLoop s half key fuel l ((r - l) / 2 + l - 1)
          else frLoop s half key fuel ((r - l) / 2 + l + 1) r
    else r

/-- The post-processing of LeafSet::find_responsible on the loop's final
r: None when r == size − 1, or set[r] is None, or set[r].key > key; else
Some r. -/
def frOut (ls : LeafSet) (key r : Nat) : Option Nat :=
  if r = ls.size - 1 then none
  else
    match ls.set.getD r none with
    | none => none
    | some kv => if key < kv.key then none else some r

/-- LeafSet::find_responsible: run the loop from (l, r) = (0, size − 1),
then post-process the final r.  The loop shrinks (r + 1) − l every
iteration, so fuel = size + 1 suffices from the entry point. -/
def find_responsible (ls : LeafSet) (key : Nat) : Option Nat :=
  frOut ls key (frLoop ls.set (ls.size / 2) key (ls.size + 1) 0 (ls.size - 1))

/-- LeafSet::get: find_responsible, then unwrap the slot and project the
value (the unwrap cannot panic: find_responsible only returns indices of
occupied slots; the getD default models the unwrap). -/
def LeafSet.get (ls : LeafSet) (key : Nat) : Option Nat :=
  (find_responsible ls key).map (fun i => ((ls.set.getD i none).getD ⟨0, 0⟩).value)

/-- The key stored at slot j (0 when the slot is empty; only used at
occupied slots). -/
def keyAt (s : List (Option KV)) (j : Nat) : Nat := ((s.getD j none).getD ⟨0, 0⟩).key

/-- Well-formedness of a leaf set as established by new and maintained by
insert/remove: slots a..b (a ≤ size/2 ≤ b < size) hold the entries, in
strictly increasing key order, and every other slot is empty. -/
structure LeafWF (s : List (Option KV)) (size a b : Nat) : Prop where
  hlen : s.length = size
  hab : a ≤ size / 2
  hbb : size / 2 ≤ b
  hbs : b < size
  occ : ∀ j, a ≤ j → j ≤ b → (s.getD j none).isSome = true
  emp : ∀ j, j < a ∨ b < j → s.getD j none = none
  mono : ∀ j, a ≤ j → j < b → keyAt s j < keyAt s (j + 1)

/-- Outcome classification for the find_responsible loop on a well-formed
leaf set: either the final index is the greatest occupied slot whose key is
at most the query (and its successor, when occupied, exceeds the query), or
the query lies strictly below the first entry's key. -/
def frQ (s : List (Option KV)) (a b key r2 : Nat) : Prop :=
  (a ≤ r2 ∧ r2 ≤ b ∧ keyAt s r2 ≤ key ∧ (r2 < b → key < keyAt s (r2 + 1))) ∨
  key < keyAt s a

/-- The concrete 5-slot leaf set produced by LeafSet::new(5, 100, 100),
as in the source's own tests. -/
def ls0 : LeafSet := ⟨5, [none, none, some ⟨100, 100⟩, none, none]⟩

/-- ls0 after inserting 150, 200, 50, 0 — the full set [0,50,100,150,200]
built exactly as in the source's test_find_responsible. -/
def lsFull : LeafSet := (((ls0.insert 150 150).insert 200 200).insert 50 50).insert 0 0

/-! ## Routing table: src/src/pastry/table.rs

The source is generic over a value type T (held next to the u64 key in a
KeyValuePair); the embedding takes Nat values.  Digit accesses inside
insert/remove/route all use indices i < 16 and so never hit the
get_nth_digit_in_u64_hex error branch; they are modelled with the total
hexDigit. -/

structure RoutingTable where
  id : Nat
  table : List (List (Option KV))
deriving DecidableEq

/-- RoutingTable::new: empty row list. -/
def RoutingTable.new (id : Nat) : RoutingTable := ⟨id, []⟩

/-- The while loop of insert that pushes empty 16-cell rows until the
table has at least n rows. -/
def growTable (t : List (List (Option KV))) (n : Nat) : List (List (Option KV)) :=
  t ++ List.replicate (n - t.length) (List.replicate 16 none)

/-- The loop of RoutingTable::insert: find the first digit index i where
key differs from the table's id, grow the table to i + 1 rows and write
cell (i, digit_i(key)); if no digit differs (key = id below 2^64) fall
through and leave the table unchanged.  fuel 16 covers i in 0..16. -/
def insLoop (rt : RoutingTable) (key value : Nat) : Nat → Nat → RoutingTable
  | fuel, i =>
    if i < 16 then
      match fuel with
      | 0 => rt
      | fuel + 1 =>
        if hexDigit rt.id i ≠ hexDigit key i then
          ⟨rt.id,
            (growTable rt.table (i + 1)).set i
              (((growTable rt.table (i + 1)).getD i []).set (hexDigit key i)
                (some ⟨key, value⟩))⟩
        else insLoop rt key value fuel (i + 1)
    else rt

def RoutingTable.insert (rt : RoutingTable) (key value : Nat) : RoutingTable :=
  insLoop rt key value 16 0

/-- The loop of RoutingTable::remove: break when i reaches the number of
rows; at the first differing digit clear cell (i, digit_i(key)). -/
def remLoop (rt : RoutingTable) (key : Nat) : Nat → Nat → RoutingTable
  | fuel, i =>
    if i < 16 then
      match fuel with
      | 0 => rt
      | fuel + 1 =>
        if rt.table.length ≤ i then rt
        else if hexDigit rt.id i ≠ hexDigit key i then
          ⟨rt.id, rt.table.set i ((rt.table.getD i []).set (hexDigit key i) none)⟩
        else remLoop rt key fuel (i + 1)
    else rt

def RoutingTable.remove (rt : RoutingTable) (key : Nat) : RoutingTable :=
  remLoop rt key 16 0

/-- One step of the fallback scan in RoutingTable::route: keep the entry
whose key minimizes Ring64::distance to the table's id, preferring the
earlier entry on ties. -/
def closerStep (id : Nat) (closest entry : Option KV) : Option KV :=
  match entry with
  | some e =>
    match closest with
    | none => some e
    | some c => if distance e.key id < distance c.key id then some e else some c
  | none => closest

/-- The fallback scan of RoutingTable::route over a row. -/
def rowClosest (id : Nat) (row : List (Option KV)) : Option KV :=
  row.foldl (closerStep id) none

/-- RoutingTable::route.  The source first computes self.table.len() - 1
on a usize; with zero materialized rows this checked subtraction
underflows and the call panics — modelled as the outer none.  Otherwise
some models Ok: some none = Ok(None), some (some (v, r)) =
Ok(Some((entry_value, r))).  The bind models the question-mark on
get_num_matched_digits. -/
def RoutingTable.route (rt : RoutingTable) (key minMatched : Nat) :
    Option (Option (Nat × Nat)) :=
  if rt.table.length = 0 then none
  else if rt.table.length - 1 < minMatched then some none
  else
    (get_num_matched_digits rt.id key).bind (fun matched =>
      if min matched (rt.table.length - 1) < minMatched then some none
      else
        match (rt.table.getD (min matched (rt.table.length - 1)) []).getD
            (hexDigit key (min matched (rt.table.length - 1))) none with
        | some e => some (some (e.value, min matched (rt.table.length - 1)))
        | none =>
          some ((rowClosest rt.id
              (rt.table.getD (min matched (rt.table.length - 1)) [])).map
            (fun kv => (kv.value, min matched (rt.table.length - 1)))))

/-- The row index route actually uses: the matched-digit count (capped at
15 by get_num_matched_digits) clamped to the last materialized row. -/
def routeRowIndex (rt : RoutingTable) (key : Nat) : Nat :=
  min (min (lcp16 rt.id key) 15) (rt.table.length - 1)

/-- A sequence of routing-table operations. -/
inductive TOp where
  | ins (key value : Nat)
  | rem (key : Nat)

def applyOp (rt : RoutingTable) : TOp → RoutingTable
  | .ins k v => rt.insert k v
  | .rem k => rt.remove k

def applyOps (rt : RoutingTable) (ops : List TOp) : RoutingTable :=
  ops.foldl applyOp rt

/-- The routing-table cell invariant: every occupied cell (r, c) holds an
entry whose key agrees with the table's id on digits 0..r−1, differs at
digit r, and has digit r equal to c. -/
def TableInv (rt : RoutingTable) : Prop :=
  ∀ r c kv, (rt.table.getD r []).getD c none = some kv →
    (∀ i, i < r → hexDigit kv.key i = hexDigit rt.id i) ∧
    hexDigit kv.key r ≠ hexDigit rt.id r ∧
    hexDigit kv.key r = c

/-- Every materialized row has exactly 16 cells. -/
def TableShape (rt : RoutingTable) : Prop :=
  ∀ row ∈ rt.table, row.length = 16

/-! ## RPC handler gating: src/src/internal/dht/service/mod.rs

Each handler body is modelled by its sequence of awaited suspension
points, in program order: the RoutingRequests gate
(block_until_routing_requests), state-name transitions (change_state), and
acquisitions of the shared data (leaf set + routing table) and store
locks.  For handlers whose later lock acquisitions depend on branching,
the trace covers the body up to and including its first peer-state
access, which is all the gating property depends on. -/

inductive SAction where
  | gate
  | setState
  | readData
  | writeData
  | readStore
  | writeStore
deriving DecidableEq

/-- Does the action read or mutate peer state (leaf set, routing table or
store)? -/
def isStateAccess : SAction → Bool
  | .readData => true
  | .writeData => true
  | .readStore => true
  | .writeStore => true
  | _ => false

/-- Every state access in the trace is preceded by the RoutingRequests
gate. -/
def gatedBeforeAccess (l : List SAction) : Prop :=
  ∀ i, i < l.length → isStateAccess (l.getD i .gate) = true →
    ∃ j, j < i ∧ l.getD j .gate = SAction.gate

/-- join (lines 53–60): gate, then join_service reads the shared data for
the routing-table merge. -/
def joinHandler : List SAction := [.gate, .readData]

/-- query (lines 62–69): gate, then query_service's leaf-set routing read. -/
def queryHandler : List SAction := [.gate, .readData]

/-- announce_arrival (lines 127–154): gate, move to UpdatingConnections,
write the shared data, move back to RoutingRequests (complete trace). -/
def announceArrivalHandler : List SAction := [.gate, .setState, .writeData, .setState]

/-- fix_leaf_set (lines 156–174): gate, then the leaf-set membership read. -/
def fixLeafSetHandler : List SAction := [.gate, .readData]

/-- get_node_state (lines 31–51): gate, then the leaf-set read (complete
trace). -/
def getNodeStateHandler : List SAction := [.gate, .readData]

/-- get_node_table_entry (lines 176–191): gate, then the table read
(complete trace). -/
def getNodeTableEntryHandler : List SAction := [.gate, .readData]

/-- transfer_keys (lines 83–125): NO gate — the handler immediately spawns
a task whose first step write-locks the store (complete trace of awaited
steps before and inside the spawned scan/stream loop, which holds the one
store lock throughout). -/
def transferKeysHandler : List SAction := [.writeStore]

/-! ## Key handoff: transfer_keys (src/src/internal/dht/service/mod.rs,
lines 83–125, and the identical Node::transfer_keys_service in
src/src/internal/dht/service/join.rs, lines 192–234) -/

/-- The spawned body of the TransferKeys handler as a function of the
serving peer's own id (prev_id = self.id), the requesting id, the store
contents at scan time (HashMap iteration modelled by list order) and
which channel sends succeed.  It computes the entries whose key fails
is_in_range(prev_id, node_id, key) and, for each, attempts the send,
deleting the key from the store only when the send returns Ok.  Returns
(streamed entries, final store). -/
def transfer_keys_exec (prevId nodeId : Nat) (store : List (Nat × List Nat))
    (sendOk : Nat → Bool) : List (Nat × List Nat) × List (Nat × List Nat) :=
  let entries := store.filter (fun e => !(is_in_range prevId nodeId e.1))
  (entries,
    entries.foldl
      (fun st e => if sendOk e.1 then st.filter (fun x => x.1 != e.1) else st) store)

/-! ## Internal DHT node structures (src/src/internal/dht)

The service and node code (join_service, announce_arrival, transfer_keys)
is in the snapshot, but the leaf-set and routing-table module it uses
(crate::internal::pastry) is not — only the top-level src/src/pastry
generation is.  The internal LeafSet is therefore modelled from the
specification below; the internal RoutingTable's insert contract (spec
§4.2) coincides with the embedded top-level RoutingTable.insert, which
stands in for it. -/

/-- A NodeEntry (id, pub_addr); the opaque address string is modelled as a
Nat token. -/
structure NodeEntry where
  id : Nat
  addr : Nat
deriving DecidableEq

/-- Modelled from the spec: the internal LeafSet
(crate::internal::pastry::leaf, absent from the snapshot).  Spec §3:
holds at most 2k+1 entries including self at a fixed central index;
entries are sorted by id modulo ring rotation so that self is at the
centre.  The entry list is kept in that rotated order: furthest
counter-clockwise neighbor at the head, furthest clockwise at the end. -/
structure ILeafSet where
  k : Nat
  entries : List NodeEntry
deriving DecidableEq

/-- Modelled from the spec: is_full — the set holds its 2k+1 entries. -/
def ILeafSet.isFull (ls : ILeafSet) : Bool := ls.entries.length == 2 * ls.k + 1

/-- Modelled from the spec: §4.1 furthest_counter_clockwise returns the
edge entry when full, None otherwise — the head of the rotated order. -/
def ILeafSet.getFurthestCounterClockwiseNeighbor (ls : ILeafSet) : Option NodeEntry :=
  if ls.isFull then ls.entries.head? else none

/-- Modelled from the spec: §4.1 remove(id) — locate by scan and excise
(the self-removal refusal is irrelevant on the modelled paths, which
remove a neighbor). -/
def ILeafSet.removeId (ls : ILeafSet) (id : Nat) : ILeafSet :=
  ⟨ls.k, ls.entries.eraseP (fun e => e.id == id)⟩

/-- The spec's half-open clockwise range (from, to] (§3), used by the
spec-modelled owner lookup. -/
def cwInRange (lo hi x : Nat) : Bool :=
  (decide (lo < hi) && (decide (lo < x) && decide (x ≤ hi))) ||
  (decide (hi < lo) && (decide (lo < x) || decide (x ≤ hi)))

/-- Modelled from the spec: the predecessor scan inside §4.1 owner(key):
advance to the next entry while the key still lies clockwise at or beyond
it (within the arc that ends at the last entry); the entry reached is the
clockwise predecessor of the key. -/
def predScan (key lastId : Nat) : NodeEntry → List NodeEntry → NodeEntry
  | pred, [] => pred
  | pred, e :: rest =>
    if key = e.id ∨ cwInRange e.id lastId key = true then predScan key lastId e rest
    else pred

/-- Modelled from the spec: §4.1 owner(key) for the internal LeafSet
(leaf.get in the service code): return the entry whose id is the clockwise
predecessor of key within the leaf-set arc; None iff key lies outside the
arc spanned by the leaf set; when the set is not full, every key has an
owner (self, the central entry, by default). -/
def ILeafSet.get (ls : ILeafSet) (key : Nat) : Option NodeEntry :=
  match ls.entries with
  | [] => none
  | first :: rest =>
    if key = first.id ∨ cwInRange first.id ((first :: rest).getLastD first).id key = true then
      some (predScan key ((first :: rest).getLastD first).id first rest)
    else if ls.isFull then none
    else some (ls.entries.getD (ls.entries.length / 2) first)

/-- Ring position of x centered on selfId: self maps to 2^63, clockwise
neighbors above, counter-clockwise neighbors below. -/
def centeredPos (selfId x : Nat) : Nat := (x + 2 ^ 64 - selfId + 2 ^ 63) % 2 ^ 64

/-- Modelled from the spec: §4.1 insert(id, info) for the internal
LeafSet: ignore if id == self; overwrite a duplicate id in place; insert
in the centered ring order; when the set overflows its 2k+1 slots,
displace the furthest entry on the incoming id's side of self (furthest
clockwise for a clockwise id, furthest counter-clockwise otherwise).  The
announce-arrival frame theorems use this definition opaquely. -/
def ILeafSet.insert (ls : ILeafSet) (id addr : Nat) : ILeafSet :=
  let selfE := ls.entries.getD (ls.entries.length / 2) ⟨0, 0⟩
  if id = selfE.id then ls
  else
    let cleaned := ls.entries.filter (fun e => e.id != id)
    let sorted := List.orderedInsert
      (fun a b => centeredPos selfE.id a.id ≤ centeredPos selfE.id b.id)
      ⟨id, addr⟩ cleaned
    if sorted.length ≤ 2 * ls.k + 1 then ⟨ls.k, sorted⟩
    else if 2 ^ 63 < centeredPos selfE.id id then ⟨ls.k, sorted.dropLast⟩
    else ⟨ls.k, sorted.tail⟩

/-- JoinResponse: the responder's identity, the hop count, the leaf-set
entries and the accumulated routing-table entries. -/
structure JoinResponseM where
  id : Nat
  addr : Nat
  hops : Nat
  leafSet : List NodeEntry
  routingTable : List NodeEntry
deriving DecidableEq

/-- The terminal branch of Node::join_service
(src/src/internal/dht/service/join.rs, lines 46–77): when this node's
leaf-set owner lookup names the node itself, build the JoinResponse from a
clone of the leaf set — minus the furthest counter-clockwise neighbor when
the set is full — together with this node's identity, the request's hop
count, and the accumulated routing table. -/
def join_service_terminal (selfId selfAddr : Nat) (leaf : ILeafSet)
    (reqHops : Nat) (accTable : List NodeEntry) : JoinResponseM :=
  let leafSet :=
    if leaf.isFull then
      (leaf.removeId ((leaf.getFurthestCounterClockwiseNeighbor).getD ⟨0, 0⟩).id).entries
    else leaf.entries
  ⟨selfId, selfAddr, reqHops, leafSet, accTable⟩

/-- Node::join_service's dispatch on the owner lookup
(route_with_leaf_set req.id): the terminal branch applies iff the lookup
returns this node itself; every other outcome forwards the request
(modelled as none). -/
def join_service_dispatch (selfId selfAddr : Nat) (leaf : ILeafSet)
    (reqId reqHops : Nat) (accTable : List NodeEntry) : Option JoinResponseM :=
  match leaf.get reqId with
  | some node =>
    if node.id = selfId then
      some (join_service_terminal selfId selfAddr leaf reqHops accTable)
    else none
  | none => none

/-- The announce_arrival handler body
(src/src/internal/dht/service/mod.rs, lines 127–154; identical
announce_arrival_service in service/join.rs, lines 166–190) acting on the
write-locked (leaf, table) pair: if the leaf set currently returns a
responsible entry for the announcer's id and that entry's id differs from
the announcer's, insert the announcer into the leaf set; always insert the
announcer into the routing table. -/
def announce_arrival_exec (leaf : ILeafSet) (table : RoutingTable)
    (reqId reqAddr : Nat) : ILeafSet × RoutingTable :=
  let leaf2 :=
    match leaf.get reqId with
    | some entry => if entry.id ≠ reqId then leaf.insert reqId reqAddr else leaf
    | none => leaf
  (leaf2, table.insert reqId reqAddr)

/-! # Theorems -/

/-! ## C1, C2: ring arithmetic -/

/-- C1, counterexample.  The claim says is_in_range(from, to, x) is true
exactly when x lies in the half-open clockwise range (from, to].  At
from = 100, to = 200, x = 100 the code returns true, yet 100 is not in
(100, 200]; and at x = 200 the code returns false although 200 is in
(100, 200]. -/
theorem ring64_is_in_range_claim_cx :
    is_in_range 100 200 100 = true ∧
    ¬ ((100 < 200 ∧ 100 < 100 ∧ 100 ≤ 200) ∨
       (100 > 200 ∧ (100 > 100 ∨ 100 ≤ 200))) ∧
    is_in_range 100 200 200 = false ∧
    ((100 < 200 ∧ 100 < 200 ∧ 200 ≤ 200) ∨
       (100 > 200 ∧ (200 > 100 ∨ 200 ≤ 200))) := by
  refine ⟨by decide, by decide, by decide, by decide⟩

/-- C1, amended.  For all from, to, x, Ring64::is_in_range(from, to, x)
returns true exactly when x lies in the half-open clockwise range
[from, to) — closed at from, open at to: (from < to ∧ from ≤ x < to) ∨
(from > to ∧ (x ≥ from ∨ x < to)). -/
theorem ring64_is_in_range_charact (lo hi v : Nat) :
    is_in_range lo hi v = true ↔
      (lo < hi ∧ lo ≤ v ∧ v < hi) ∨ (hi < lo ∧ (lo ≤ v ∨ v < hi)) := by
  simp [is_in_range, and_assoc]

/-- C2, counterexample.  The claim says the clockwise distance computed by
Ring64 is (b − a) mod 2^64 and that distance(a, a) = 0.  At a = b = 0 the
code computes (u64::MAX − 0) + 0 = 2^64 − 1, not 0. -/
theorem ring64_distance_claim_cx :
    counter_clockwise_distance 0 0 ≠ (0 - 0) % 2 ^ 64 ∧
    distance 0 0 ≠ 0 := by
  refine ⟨by decide, by decide⟩

/-- C2, amended.  For a, b < 2^64: when a > b,
counter_clockwise_distance(a, b) is the true modular distance
(a − b) mod 2^64; when a ≤ b it is one LESS than the true modular
distance 2^64 − b + a (the code uses u64::MAX, i.e. 2^64 − 1, instead of
2^64).  distance(a, b) is the minimum of the two directions, and in
particular distance(a, a) = 2^64 − 1, not 0. -/
theorem ring64_distance_charact (a b : Nat) (ha : a < 2 ^ 64) (hb : b < 2 ^ 64) :
    (b < a → counter_clockwise_distance a b = (a - b) % 2 ^ 64) ∧
    (a ≤ b → counter_clockwise_distance a b + 1 = 2 ^ 64 - b + a) ∧
    distance a b = min (counter_clockwise_distance a b) (counter_clockwise_distance b a) ∧
    distance a a = 2 ^ 64 - 1 := by
  refine ⟨?_, ?_, rfl, ?_⟩
  · intro h
    simp only [counter_clockwise_distance, if_pos h]
    omega
  · intro h
    simp only [counter_clockwise_distance, U64MAX]
    rw [if_neg (by omega)]
    omega
  · simp only [distance, counter_clockwise_distance, U64MAX]
    rw [if_neg (by omega)]
    omega

/-- C2, witness for the amended characterization at a = 200, b = 100. -/
theorem ring64_distance_charact_witness :
    (200 : Nat) < 2 ^ 64 ∧ (100 : Nat) < 2 ^ 64 ∧ (100 : Nat) < 200 ∧
    counter_clockwise_distance 200 100 = (200 - 100) % 2 ^ 64 :=
  ⟨by decide, by decide, by decide,
    (ring64_distance_charact 200 100 (by decide) (by decide)).1 (by decide)⟩

/-- C1, witness: the amended characterization applied at (100, 200, 150). -/
theorem ring64_is_in_range_charact_witness :
    is_in_range 100 200 150 = true ↔
      (100 < 200 ∧ 100 ≤ 150 ∧ 150 < 200) ∨ (200 < 100 ∧ (100 ≤ 150 ∨ 150 < 200)) :=
  ring64_is_in_range_charact 100 200 150

/-! ## C9: matched digits -/

theorem get_nth_digit_eq_hexDigit (num n : Nat) (h : n < 16) :
    get_nth_digit_in_u64_hex num n = some (hexDigit num n) := by
  simp [get_nth_digit_in_u64_hex, hexDigit, Nat.not_le.mpr h]

theorem lcpFrom_spec (a b : Nat) :
    ∀ fuel i, 16 - i ≤ fuel →
      mdLoop a b fuel i =
        some (min (i + ((List.range' i (16 - i)).takeWhile
          (fun j => hexDigit a j == hexDigit b j)).length) 15) := by
  intro fuel
  induction fuel with
  | zero =>
    intro i h
    have hi : 16 ≤ i := by omega
    have h0 : 16 - i = 0 := by omega
    rw [mdLoop, if_neg (by omega), h0]
    simp only [List.range'_zero, List.takeWhile_nil, List.length_nil, Nat.add_zero,
      Option.some.injEq]
    omega
  | succ fuel ih =>
    intro i h
    rw [mdLoop]
    by_cases hi : i < 16
    · rw [if_pos hi, get_nth_digit_eq_hexDigit a i hi, get_nth_digit_eq_hexDigit b i hi]
      simp only [Option.some_bind]
      have hr : 16 - i = (16 - (i + 1)) + 1 := by omega
      rw [hr, List.range'_succ, List.takeWhile_cons]
      by_cases hd : hexDigit a i = hexDigit b i
      · rw [if_neg (show ¬ (hexDigit a i ≠ hexDigit b i) by simp [hd]),
          if_pos (show (hexDigit a i == hexDigit b i) = true by simp [hd]),
          ih (i + 1) (by omega)]
        simp only [List.length_cons, Option.some.injEq]
        omega
      · rw [if_pos (show (hexDigit a i ≠ hexDigit b i) by simpa using hd),
          if_neg (show ¬ (hexDigit a i == hexDigit b i) = true by simpa using hd)]
        simp only [List.length_nil, Nat.add_zero, Option.some.injEq]
        omega
    · have h0 : 16 - i = 0 := by omega
      rw [if_neg hi, h0]
      simp only [List.range'_zero, List.takeWhile_nil, List.length_nil, Nat.add_zero,
        Option.some.injEq]
      omega

/-- C9, counterexample.  The claim says get_num_matched_digits(a, b) = 16
when a = b; the code returns U64_HEX_NUM_OF_DIGITS − 1 = 15 after the loop
finds no differing digit. -/
theorem matched_digits_claim_cx :
    get_num_matched_digits 0 0 = some 15 ∧ lcp16 0 0 = 16 ∧
    get_num_matched_digits 0 0 ≠ some (lcp16 0 0) := by
  refine ⟨by decide, by decide, by decide⟩

/-- C9, amended.  For a, b < 2^64, get_num_matched_digits(a, b) is
min(lcp, 15) where lcp is the length of the longest common base-16 prefix
of a and b: it equals lcp whenever a ≠ b, but equals 15 — not 16 — when
a = b (where lcp = 16). -/
theorem matched_digits_charact (a b : Nat) (ha : a < 2 ^ 64) (hb : b < 2 ^ 64) :
    get_num_matched_digits a b = some (min (lcp16 a b) 15) ∧
    (a = b → lcp16 a b = 16 ∧ get_num_matched_digits a b = some 15) := by
  constructor
  · have := lcpFrom_spec a b 16 0 (by omega)
    simpa [get_num_matched_digits, lcp16, List.range_eq_range'] using this
  · rintro rfl
    have hl : lcp16 a a = 16 := by
      unfold lcp16
      rw [List.takeWhile_eq_self_iff.mpr (by intro x hx; simp)]
      exact List.length_range 16
    refine ⟨hl, ?_⟩
    have h1 := lcpFrom_spec a a 16 0 (by omega)
    simp only [get_num_matched_digits]
    rw [h1]
    have h2 : ((List.range' 0 (16 - 0)).takeWhile
        (fun j => hexDigit a j == hexDigit a j)).length = 16 := by
      rw [List.takeWhile_eq_self_iff.mpr (by intro x hx; simp)]
      rfl
    rw [h2]
    rfl

/-- C9, witness for the amended characterization at a = 0, b = 2^60
(hex F000000000000000 vs 1000000000000000: first digit differs). -/
theorem matched_digits_charact_witness :
    (0 : Nat) < 2 ^ 64 ∧ (2 ^ 60 : Nat) < 2 ^ 64 ∧
    get_num_matched_digits 0 (2 ^ 60) = some (min (lcp16 0 (2 ^ 60)) 15) :=
  ⟨by decide, by norm_num, (matched_digits_charact 0 (2 ^ 60) (by decide) (by norm_num)).1⟩

/-! ## C3: leaf set owner lookup -/

/-- The embedded LeafSet reproduces the source's test_find_responsible and
test_insert sequence: new(5,100,100); insert 150, 200, 50, 0 gives
[0,50,100,150,200]. -/
theorem leafset_embedding_matches_source_tests :
    LeafSet.new 5 100 100 = some ls0 ∧
    (ls0.insert 150 150).set =
      [none, none, some ⟨100, 100⟩, some ⟨150, 150⟩, none] ∧
    lsFull.set =
      [some ⟨0, 0⟩, some ⟨50, 50⟩, some ⟨100, 100⟩, some ⟨150, 150⟩, some ⟨200, 200⟩] ∧
    find_responsible ls0 100 = some 2 ∧
    find_responsible ls0 150 = some 2 ∧
    find_responsible ls0 50 = none ∧
    find_responsible lsFull 25 = some 0 ∧
    lsFull.get 175 = some 150 := by
  refine ⟨by decide, by decide, by decide, by decide, by decide, by decide, by decide, by decide⟩

theorem keyAt_of_some {s : List (Option KV)} {j : Nat} {kv : KV}
    (h : s.getD j none = some kv) : keyAt s j = kv.key := by
  unfold keyAt
  rw [h]
  rfl

theorem LeafWF.some_range {s : List (Option KV)} {size a b : Nat}
    (W : LeafWF s size a b) {j : Nat} {kv : KV}
    (h : s.getD j none = some kv) : a ≤ j ∧ j ≤ b := by
  by_contra hc
  have hn : s.getD j none = none := W.emp j (by omega)
  rw [h] at hn
  exact Option.noConfusion hn

theorem LeafWF.occ_some {s : List (Option KV)} {size a b : Nat}
    (W : LeafWF s size a b) (j : Nat) (h1 : a ≤ j) (h2 : j ≤ b) :
    ∃ kv, s.getD j none = some kv := by
  have h := W.occ j h1 h2
  cases hj : s.getD j none with
  | none => rw [hj] at h; exact absurd h (by simp)
  | some kv => exact ⟨kv, rfl⟩

theorem LeafWF.none_cases {s : List (Option KV)} {size a b : Nat}
    (W : LeafWF s size a b) {j : Nat} (h : s.getD j none = none) :
    j < a ∨ b < j := by
  by_contra hc
  obtain ⟨kv, hkv⟩ := W.occ_some j (by omega) (by omega)
  rw [h] at hkv
  exact Option.noConfusion hkv

theorem LeafWF.mono_le {s : List (Option KV)} {size a b : Nat}
    (W : LeafWF s size a b) :
    ∀ i j, a ≤ i → i ≤ j → j ≤ b → keyAt s i ≤ keyAt s j := by
  intro i j hai hij hjb
  induction j with
  | zero =>
    have h0 : i = 0 := by omega
    subst h0; exact le_refl _
  | succ j ih =>
    rcases Nat.lt_or_ge i (j + 1) with h | h
    · calc keyAt s i ≤ keyAt s j := ih (by omega) (by omega)
        _ ≤ keyAt s (j + 1) := le_of_lt (W.mono j (by omega) (by omega))
    · have h1 : i = j + 1 := by omega
      subst h1; exact le_refl _

/-- The find_responsible loop, at exit (l = r + 1): the invariants on the
two sides classify the final r. -/
theorem frLoop_exit (s : List (Option KV)) (size a b key : Nat)
    (W : LeafWF s size a b) (r : Nat)
    (I2 : ∀ j, j < r + 1 → (∀ kv, s.getD j none = some kv → kv.key < key) ∧
                  (s.getD j none = none → j < a))
    (I3 : ∀ j, r < j → (∀ kv, s.getD j none = some kv → key < kv.key) ∧
                  (s.getD j none = none → b < j)) :
    frQ s a b key r := by
  have hab : a ≤ b := le_trans W.hab W.hbb
  cases hsr : s.getD r none with
  | some kv =>
    obtain ⟨har, hrb⟩ := W.some_range hsr
    left
    refine ⟨har, hrb, ?_, ?_⟩
    · rw [keyAt_of_some hsr]
      exact le_of_lt ((I2 r (by omega)).1 kv hsr)
    · intro hlt
      obtain ⟨kv2, hkv2⟩ := W.occ_some (r + 1) (by omega) (by omega : r + 1 ≤ b)
      rw [keyAt_of_some hkv2]
      exact (I3 (r + 1) (by omega)).1 kv2 hkv2
  | none =>
    have hra : r < a := (I2 r (by omega)).2 hsr
    obtain ⟨kva, hkva⟩ := W.occ_some a (le_refl a) hab
    right
    rw [keyAt_of_some hkva]
    exact (I3 a (by omega)).1 kva hkva

/-- One unfolding of the find_responsible loop when it is entered. -/
theorem frLoop_succ (s : List (Option KV)) (half key fuel l r : Nat) (h : l ≤ r) :
    frLoop s half key (fuel + 1) l r =
      match s.getD ((r - l) / 2 + l) none with
      | some e =>
        if e.key < key then frLoop s half key fuel ((r - l) / 2 + l + 1) r
        else if key < e.key then
          (if (r - l) / 2 + l = 0 then r
           else frLoop s half key fuel l ((r - l) / 2 + l - 1))
        else (r - l) / 2 + l
      | none =>
        if half < (r - l) / 2 + l then frLoop s half key fuel l ((r - l) / 2 + l - 1)
        else frLoop s half key fuel ((r - l) / 2 + l + 1) r := by
  rw [frLoop, if_pos h]

/-- The find_responsible loop preserves the two-sided search invariant:
everything strictly left of l is either an empty slot left of the block or
an entry with key below the query, and everything strictly right of r is
either an empty slot right of the block or an entry with key above the
query. -/
theorem frLoop_spec (s : List (Option KV)) (size a b key : Nat)
    (W : LeafWF s size a b) :
    ∀ fuel l r, r + 1 - l ≤ fuel → l ≤ r + 1 → r < size →
      (∀ j, j < l → (∀ kv, s.getD j none = some kv → kv.key < key) ∧
                    (s.getD j none = none → j < a)) →
      (∀ j, r < j → (∀ kv, s.getD j none = some kv → key < kv.key) ∧
                    (s.getD j none = none → b < j)) →
      frQ s a b key (frLoop s (size / 2) key fuel l r) := by
  intro fuel
  induction fuel with
  | zero =>
    intro l r hfuel hl hr I2 I3
    have hlr : ¬ l ≤ r := by omega
    rw [frLoop, if_neg hlr]
    have hl1 : l = r + 1 := by omega
    subst hl1
    exact frLoop_exit s size a b key W r I2 I3
  | succ fuel ih =>
    intro l r hfuel hl hr I2 I3
    by_cases hlr : l ≤ r
    · rw [frLoop_succ s (size / 2) key fuel l r hlr]
      have hlm : l ≤ (r - l) / 2 + l := by omega
      have hmr : (r - l) / 2 + l ≤ r := by omega
      split
      next e hsm =>
        obtain ⟨ham, hmb⟩ := W.some_range hsm
        by_cases he1 : e.key < key
        · rw [if_pos he1]
          refine ih ((r - l) / 2 + l + 1) r (by omega) (by omega) hr ?_ I3
          intro j hj
          constructor
          · intro kv hkv
            obtain ⟨haj, hjb⟩ := W.some_range hkv
            rcases Nat.lt_or_ge j l with hjl | hjl
            · exact (I2 j hjl).1 kv hkv
            · have hle : keyAt s j ≤ keyAt s ((r - l) / 2 + l) :=
                W.mono_le j ((r - l) / 2 + l) haj (by omega) hmb
              rw [keyAt_of_some hkv, keyAt_of_some hsm] at hle
              omega
          · intro hnone
            rcases Nat.lt_or_ge j l with hjl | hjl
            · exact (I2 j hjl).2 hnone
            · rcases W.none_cases hnone with h | h
              · exact h
              · omega
        · rw [if_neg he1]
          by_cases he2 : key < e.key
          · rw [if_pos he2]
            by_cases hm0 : (r - l) / 2 + l = 0
            · rw [if_pos hm0]
              right
              have ha0 : a = 0 := by omega
              have hkeyA : keyAt s a = e.key := by
                rw [ha0, ← hm0]; exact keyAt_of_some hsm
              omega
            · rw [if_neg hm0]
              refine ih l ((r - l) / 2 + l - 1) (by omega) (by omega) (by omega) I2 ?_
              intro j hj
              constructor
              · intro kv hkv
                obtain ⟨haj, hjb⟩ := W.some_range hkv
                rcases Nat.lt_or_ge r j with hrj | hrj
                · exact (I3 j hrj).1 kv hkv
                · have hle : keyAt s ((r - l) / 2 + l) ≤ keyAt s j :=
                    W.mono_le ((r - l) / 2 + l) j ham (by omega) hjb
                  rw [keyAt_of_some hkv, keyAt_of_some hsm] at hle
                  omega
              · intro hnone
                rcases Nat.lt_or_ge r j with hrj | hrj
                · exact (I3 j hrj).2 hnone
                · rcases W.none_cases hnone with h | h
                  · omega
                  · exact h
          · -- exact key match: the loop returns m
            rw [if_neg he2]
            have he : e.key = key := by omega
            left
            refine ⟨ham, hmb, ?_, ?_⟩
            · rw [keyAt_of_some hsm]; omega
            · intro hlt
              have := W.mono ((r - l) / 2 + l) ham hlt
              rw [keyAt_of_some hsm] at this
              omega
      next hsm =>
        rcases W.none_cases hsm with hma | hmb
        · -- m < a, hence m ≤ size / 2: search right
          have hms : ¬ size / 2 < (r - l) / 2 + l := by
            have := W.hab; omega
          rw [if_neg hms]
          refine ih ((r - l) / 2 + l + 1) r (by omega) (by omega) hr ?_ I3
          intro j hj
          constructor
          · intro kv hkv
            obtain ⟨haj, hjb⟩ := W.some_range hkv
            rcases Nat.lt_or_ge j l with hjl | hjl
            · exact (I2 j hjl).1 kv hkv
            · omega
          · intro hnone
            rcases Nat.lt_or_ge j l with hjl | hjl
            · exact (I2 j hjl).2 hnone
            · rcases W.none_cases hnone with h | h
              · exact h
              · have := W.hbb; omega
        · -- m > b, hence m > size / 2: search left
          have hms : size / 2 < (r - l) / 2 + l := by
            have := W.hbb; omega
          rw [if_pos hms]
          refine ih l ((r - l) / 2 + l - 1) (by omega) (by omega) (by omega) I2 ?_
          intro j hj
          constructor
          · intro kv hkv
            obtain ⟨haj, hjb⟩ := W.some_range hkv
            rcases Nat.lt_or_ge r j with hrj | hrj
            · exact (I3 j hrj).1 kv hkv
            · omega
          · intro hnone
            rcases Nat.lt_or_ge r j with hrj | hrj
            · exact (I3 j hrj).2 hnone
            · rcases W.none_cases hnone with h | h
              · have := W.hab; omega
              · exact h
    · rw [frLoop, if_neg hlr]
      have hl1 : l = r + 1 := by omega
      subst hl1
      exact frLoop_exit s size a b key W r I2 I3

/-- The post-processing of find_responsible classifies the loop outcome:
None exactly when the key is below the first entry or the entry block
reaches the rightmost slot with last key ≤ key. -/
theorem frOut_spec (ls : LeafSet) (a b key r2 : Nat)
    (W : LeafWF ls.set ls.size a b) (hQ : frQ ls.set a b key r2) :
    (frOut ls key r2 = none ↔
      key < keyAt ls.set a ∨ (b = ls.size - 1 ∧ keyAt ls.set b ≤ key)) ∧
    (∀ i, frOut ls key r2 = some i →
      a ≤ i ∧ i ≤ b ∧ i < ls.size - 1 ∧ keyAt ls.set i ≤ key ∧
      (i < b → key < keyAt ls.set (i + 1))) := by
  have hab : a ≤ b := le_trans W.hab W.hbb
  have hbs := W.hbs
  rcases hQ with ⟨h1, h2, h3, h4⟩ | hB
  · -- the loop found the greatest entry with key at most the query
    by_cases hsz : r2 = ls.size - 1
    · have hbr : b = r2 := by omega
      constructor
      · simp only [frOut, if_pos hsz]
        constructor
        · intro _
          right
          exact ⟨by omega, by rw [hbr]; exact h3⟩
        · intro _
          trivial
      · intro i hi
        simp only [frOut, if_pos hsz] at hi
        exact Option.noConfusion hi
    · obtain ⟨kv, hkv⟩ := W.occ_some r2 h1 h2
      have hout : frOut ls key r2 = some r2 := by
        simp only [frOut, if_neg hsz, hkv]
        rw [if_neg (by rw [keyAt_of_some hkv] at h3; omega)]
      constructor
      · rw [hout]
        constructor
        · intro h
          exact Option.noConfusion h
        · intro hrhs
          exfalso
          rcases hrhs with hlow | ⟨hb2, hhigh⟩
          · have := W.mono_le a r2 (le_refl a) h1 h2
            omega
          · have hr2b : r2 < b := by omega
            have := h4 hr2b
            have := W.mono_le (r2 + 1) b (by omega) (by omega) (le_refl b)
            omega
      · intro i hi
        rw [hout] at hi
        cases hi
        exact ⟨h1, h2, by omega, h3, h4⟩
  · -- the query is below the first entry: always None
    constructor
    · constructor
      · intro _
        exact Or.inl hB
      · intro _
        by_cases hsz : r2 = ls.size - 1
        · simp [frOut, hsz]
        · cases hkv : ls.set.getD r2 none with
          | none => simp only [frOut, if_neg hsz, hkv]
          | some kv =>
            have hr : a ≤ r2 ∧ r2 ≤ b := W.some_range hkv
            have hle : keyAt ls.set a ≤ keyAt ls.set r2 :=
              W.mono_le a r2 (le_refl a) hr.1 hr.2
            rw [keyAt_of_some hkv] at hle
            simp only [frOut, if_neg hsz, hkv]
            rw [if_pos (by omega)]
    · intro i hi
      exfalso
      by_cases hsz : r2 = ls.size - 1
      · simp [frOut, hsz] at hi
      · cases hkv : ls.set.getD r2 none with
        | none =>
          simp only [frOut, if_neg hsz, hkv] at hi
          exact Option.noConfusion hi
        | some kv =>
          have hr : a ≤ r2 ∧ r2 ≤ b := W.some_range hkv
          have hle : keyAt ls.set a ≤ keyAt ls.set r2 :=
            W.mono_le a r2 (le_refl a) hr.1 hr.2
          rw [keyAt_of_some hkv] at hle
          simp only [frOut, if_neg hsz, hkv] at hi
          rw [if_pos (by omega)] at hi
          exact Option.noConfusion hi

/-- C3, amended.  For every well-formed leaf set (the entries occupy a
contiguous block of slots a..b around the center slot, in strictly
increasing key order, as new/insert/remove maintain) and every key, the
owner lookup (LeafSet::get / find_responsible) returns None iff the key is
strictly below the first entry's key, or the block reaches the rightmost
slot (b = size − 1, which holds in particular when the set is full) and
the key is at or equal to or above the last entry's key.  This differs
from the claim: a key equal to the last entry's id is inside the arc yet
has no owner when that entry sits in the rightmost slot, and in a non-full
set keys below the first entry still have no owner (there is no
self-default).  When the lookup returns Some i, slot i holds the greatest
entry key that is at most the key, and i is never the rightmost slot. -/
theorem leafset_get_none_charact (ls : LeafSet) (a b key : Nat)
    (W : LeafWF ls.set ls.size a b) :
    (ls.get key = none ↔
      key < keyAt ls.set a ∨ (b = ls.size - 1 ∧ keyAt ls.set b ≤ key)) ∧
    (∀ i, find_responsible ls key = some i →
      a ≤ i ∧ i ≤ b ∧ i < ls.size - 1 ∧ keyAt ls.set i ≤ key ∧
      (i < b → key < keyAt ls.set (i + 1))) := by
  have hs1 : 1 ≤ ls.size := by have := W.hbs; omega
  have hQ := frLoop_spec ls.set ls.size a b key W (ls.size + 1) 0 (ls.size - 1)
    (by omega) (by omega) (by omega)
    (by intro j hj; exact absurd hj (Nat.not_lt_zero j))
    (by
      intro j hj
      have hjs : ls.size ≤ j := by omega
      have hnone : ls.set.getD j none = none :=
        List.getD_eq_default _ _ (by rw [W.hlen]; omega)
      constructor
      · intro kv hkv
        rw [hnone] at hkv
        exact Option.noConfusion hkv
      · intro _
        have := W.hbs
        omega)
  have hspec := frOut_spec ls a b key
    (frLoop ls.set (ls.size / 2) key (ls.size + 1) 0 (ls.size - 1)) W hQ
  have hget : (ls.get key = none) ↔ (find_responsible ls key = none) := by
    cases h : find_responsible ls key <;> simp [LeafSet.get, h]
  refine ⟨?_, ?_⟩
  · rw [hget]
    exact hspec.1
  · exact hspec.2

/-- C3, witness: the amended characterization applied to the concrete
non-full set [_,_,100,_,_] (block a = b = 2) at key 75, giving None. -/
theorem leafset_get_none_charact_witness : ls0.get 75 = none := by
  have W : LeafWF ls0.set ls0.size 2 2 := by
    refine ⟨rfl, by decide, by decide, by decide, ?_, ?_, ?_⟩
    · intro j h1 h2
      have hj : j = 2 := by omega
      subst hj
      rfl
    · intro j hj
      match j, hj with
      | 0, _ => rfl
      | 1, _ => rfl
      | 3, _ => rfl
      | 4, _ => rfl
      | (n + 5), _ => exact List.getD_eq_default _ _ (by simp [ls0])
    · intro j h1 h2
      omega
  exact (leafset_get_none_charact ls0 2 2 75 W).1.mpr (Or.inl (by decide))

/-- C3, counterexample.  The claim says get returns None iff the key lies
outside [first.id, last.id], that a key equal to an entry's id inside the
arc has an owner, and that in a non-full set every key has an owner (self
by default).  In the non-full set [_,_,100,_,_] the key 75 gets None (no
self-default), and in the full set [0,50,100,150,200] the key 200 — equal
to the last entry's id, inside the arc — also gets None.  Both facts are
asserted by the source's own tests. -/
theorem leafset_get_claim_cx :
    ls0.set.getD 0 none = none ∧
    find_responsible ls0 75 = none ∧
    lsFull.set.getD 0 none = some ⟨0, 0⟩ ∧
    lsFull.set.getD 4 none = some ⟨200, 200⟩ ∧
    find_responsible lsFull 200 = none ∧
    lsFull.get 200 = none := by
  refine ⟨by decide, by decide, by decide, by decide, by decide, by decide⟩

/-! ## C8: routing-table cell invariant -/

theorem hexDigit_lt (num n : Nat) : hexDigit num n < 16 :=
  Nat.mod_lt _ (by omega)

theorem getD_set_self {α : Type} (l : List α) (i : Nat) (x d : α) (h : i < l.length) :
    (l.set i x).getD i d = x := by
  rw [List.getD_eq_getD_get?, List.get?_eq_getElem?, List.getElem?_set_eq_of_lt x h]
  rfl

theorem getD_set_ne {α : Type} (l : List α) (i j : Nat) (x d : α) (h : i ≠ j) :
    (l.set i x).getD j d = l.getD j d := by
  rw [List.getD_eq_getD_get?, List.getD_eq_getD_get?, List.get?_eq_getElem?,
    List.get?_eq_getElem?, List.getElem?_set_ne h]

theorem growTable_length (t : List (List (Option KV))) (n : Nat) :
    (growTable t n).length = max t.length n := by
  simp [growTable]
  omega

theorem growTable_getD_lt (t : List (List (Option KV))) (n j : Nat) (h : j < t.length) :
    (growTable t n).getD j [] = t.getD j [] :=
  List.getD_append _ _ _ _ h

theorem growTable_getD_pad (t : List (List (Option KV))) (n j : Nat)
    (h1 : t.length ≤ j) (h2 : j < max t.length n) :
    (growTable t n).getD j [] = List.replicate 16 none := by
  rw [growTable, List.getD_append_right _ _ _ _ h1]
  have hlen : j - t.length <
      (List.replicate (n - t.length) (List.replicate 16 (none : Option KV))).length := by
    simp
    omega
  rw [List.getD_eq_getElem _ _ hlen, List.getElem_replicate]

theorem growTable_row_len (t : List (List (Option KV))) (n j : Nat)
    (hShape : ∀ row ∈ t, row.length = 16) (h : j < max t.length n) :
    ((growTable t n).getD j []).length = 16 := by
  rcases Nat.lt_or_ge j t.length with hj | hj
  · rw [growTable_getD_lt t n j hj, List.getD_eq_getElem _ _ hj]
    exact hShape _ (List.getElem_mem hj)
  · rw [growTable_getD_pad t n j hj h]
    simp

/-- One unfolding of the insert loop when it is entered. -/
theorem insLoop_succ (rt : RoutingTable) (key value fuel i : Nat) (hi : i < 16) :
    insLoop rt key value (fuel + 1) i =
      if hexDigit rt.id i ≠ hexDigit key i then
        ⟨rt.id,
          (growTable rt.table (i + 1)).set i
            (((growTable rt.table (i + 1)).getD i []).set (hexDigit key i)
              (some ⟨key, value⟩))⟩
      else insLoop rt key value fuel (i + 1) := by
  rw [insLoop, if_pos hi]

/-- One unfolding of the remove loop when it is entered. -/
theorem remLoop_succ (rt : RoutingTable) (key fuel i : Nat) (hi : i < 16) :
    remLoop rt key (fuel + 1) i =
      if rt.table.length ≤ i then rt
      else if hexDigit rt.id i ≠ hexDigit key i then
        ⟨rt.id, rt.table.set i ((rt.table.getD i []).set (hexDigit key i) none)⟩
      else remLoop rt key fuel (i + 1) := by
  rw [remLoop, if_pos hi]

theorem insLoop_inv (rt : RoutingTable) (key value : Nat)
    (hInv : TableInv rt) (hShape : TableShape rt) :
    ∀ fuel i, (∀ j, j < i → hexDigit rt.id j = hexDigit key j) →
      TableInv (insLoop rt key value fuel i) ∧
      TableShape (insLoop rt key value fuel i) := by
  intro fuel
  induction fuel with
  | zero =>
    intro i hpre
    rw [insLoop]
    split
    · exact ⟨hInv, hShape⟩
    · exact ⟨hInv, hShape⟩
  | succ fuel ih =>
    intro i hpre
    by_cases hi : i < 16
    · rw [insLoop_succ rt key value fuel i hi]
      by_cases hd : hexDigit rt.id i ≠ hexDigit key i
      · rw [if_pos hd]
        have higrow : i < (growTable rt.table (i + 1)).length := by
          rw [growTable_length]
          omega
        have hrowlen : ((growTable rt.table (i + 1)).getD i []).length = 16 :=
          growTable_row_len rt.table (i + 1) i hShape (by omega)
        constructor
        · intro r c kv hcell
          by_cases hri : i = r
          · subst hri
            rw [getD_set_self _ _ _ _ higrow] at hcell
            by_cases hc : hexDigit key i = c
            · subst hc
              rw [getD_set_self _ _ _ _ (by rw [hrowlen]; exact hexDigit_lt key i)] at hcell
              cases hcell
              refine ⟨?_, ?_, rfl⟩
              · intro j hj
                exact (hpre j hj).symm
              · intro hcontra
                exact hd hcontra.symm
            · rw [getD_set_ne _ _ _ _ _ hc] at hcell
              rcases Nat.lt_or_ge i rt.table.length with hit | hit
              · rw [growTable_getD_lt _ _ _ hit] at hcell
                exact hInv i c kv hcell
              · rw [growTable_getD_pad _ _ _ hit (by omega)] at hcell
                rcases Nat.lt_or_ge c 16 with hc16 | hc16
                · rw [List.getD_eq_getElem _ _ (by simp; omega),
                    List.getElem_replicate] at hcell
                  exact Option.noConfusion hcell
                · rw [List.getD_eq_default _ _ (by simp; omega)] at hcell
                  exact Option.noConfusion hcell
          · rw [getD_set_ne _ _ _ _ _ hri] at hcell
            rcases Nat.lt_or_ge r rt.table.length with hrt | hrt
            · rw [growTable_getD_lt _ _ _ hrt] at hcell
              exact hInv r c kv hcell
            · rcases Nat.lt_or_ge r (max rt.table.length (i + 1)) with hrg | hrg
              · rw [growTable_getD_pad _ _ _ hrt hrg] at hcell
                rcases Nat.lt_or_ge c 16 with hc16 | hc16
                · rw [List.getD_eq_getElem _ _ (by simp; omega),
                    List.getElem_replicate] at hcell
                  exact Option.noConfusion hcell
                · rw [List.getD_eq_default _ _ (by simp; omega)] at hcell
                  exact Option.noConfusion hcell
              · have houter : (growTable rt.table (i + 1)).getD r [] = ([] : List (Option KV)) :=
                  List.getD_eq_default _ _ (by rw [growTable_length]; omega)
                rw [houter] at hcell
                simp at hcell
        · intro row hrow
          rcases List.mem_or_eq_of_mem_set hrow with hmem | heq
          · rw [growTable] at hmem
            rcases List.mem_append.mp hmem with hmem | hmem
            · exact hShape row hmem
            · rw [List.eq_of_mem_replicate hmem]
              simp
          · rw [heq, List.length_set]
            exact hrowlen
      · rw [if_neg hd]
        exact ih (i + 1) (by
          intro j hj
          rcases Nat.lt_or_ge j i with hji | hji
          · exact hpre j hji
          · have hj2 : j = i := by omega
            subst hj2
            omega)
    · rw [insLoop, if_neg hi]
      exact ⟨hInv, hShape⟩

theorem remLoop_inv (rt : RoutingTable) (key : Nat)
    (hInv : TableInv rt) (hShape : TableShape rt) :
    ∀ fuel i, TableInv (remLoop rt key fuel i) ∧ TableShape (remLoop rt key fuel i) := by
  intro fuel
  induction fuel with
  | zero =>
    intro i
    rw [remLoop]
    split
    · exact ⟨hInv, hShape⟩
    · exact ⟨hInv, hShape⟩
  | succ fuel ih =>
    intro i
    by_cases hi : i < 16
    · rw [remLoop_succ rt key fuel i hi]
      by_cases hlen : rt.table.length ≤ i
      · rw [if_pos hlen]
        exact ⟨hInv, hShape⟩
      · rw [if_neg hlen]
        by_cases hd : hexDigit rt.id i ≠ hexDigit key i
        · rw [if_pos hd]
          constructor
          · intro r c kv hcell
            by_cases hri : i = r
            · subst hri
              rw [getD_set_self _ _ _ _ (by omega)] at hcell
              by_cases hc : hexDigit key i = c
              · subst hc
                have hrl : ((rt.table.getD i []).length) = 16 := by
                  rw [List.getD_eq_getElem _ _ (by omega)]
                  exact hShape _ (List.getElem_mem (by omega))
                rw [getD_set_self _ _ _ _ (by rw [hrl]; exact hexDigit_lt key i)] at hcell
                exact Option.noConfusion hcell
              · rw [getD_set_ne _ _ _ _ _ hc] at hcell
                exact hInv i c kv hcell
            · rw [getD_set_ne _ _ _ _ _ hri] at hcell
              exact hInv r c kv hcell
          · intro row hrow
            rcases List.mem_or_eq_of_mem_set hrow with hmem | heq
            · exact hShape row hmem
            · rw [heq, List.length_set]
              rw [List.getD_eq_getElem _ _ (by omega)]
              exact hShape _ (List.getElem_mem (by omega))
        · rw [if_neg hd]
          exact ih (i + 1)
    · rw [remLoop, if_neg hi]
      exact ⟨hInv, hShape⟩

theorem insLoop_self (rt : RoutingTable) (value : Nat) :
    ∀ fuel i, 16 - i ≤ fuel → insLoop rt rt.id value fuel i = rt := by
  intro fuel
  induction fuel with
  | zero =>
    intro i h
    rw [insLoop, if_neg (by omega)]
  | succ fuel ih =>
    intro i h
    by_cases hi : i < 16
    · rw [insLoop_succ rt rt.id value fuel i hi, if_neg (by simp)]
      exact ih (i + 1) (by omega)
    · rw [insLoop, if_neg hi]

/-- C8: after any sequence of inserts and removes starting from a fresh
table, every occupied cell (r, c) holds an entry whose id shares exactly
the first r hex digits with the table's id (they agree on digits 0..r−1
and differ at digit r) and whose digit r equals c; moreover every
materialized row has 16 cells, and inserting the table's own id (no
differing digit) leaves any table unchanged. -/
theorem routing_table_invariant (id : Nat) (ops : List TOp) (v : Nat) :
    TableInv (applyOps (RoutingTable.new id) ops) ∧
    TableShape (applyOps (RoutingTable.new id) ops) ∧
    (∀ rt : RoutingTable, rt.insert rt.id v = rt) := by
  have hstep : ∀ (ops2 : List TOp) (rt : RoutingTable),
      TableInv rt ∧ TableShape rt →
      TableInv (applyOps rt ops2) ∧ TableShape (applyOps rt ops2) := by
    intro ops2
    induction ops2 with
    | nil => intro rt h; exact h
    | cons op rest ih =>
      intro rt h
      have h1 : TableInv (applyOp rt op) ∧ TableShape (applyOp rt op) := by
        cases op with
        | ins k v2 =>
          exact insLoop_inv rt k v2 h.1 h.2 16 0 (by intro j hj; omega)
        | rem k =>
          exact remLoop_inv rt k h.1 h.2 16 0
      exact ih (applyOp rt op) h1
  have hbase : TableInv (RoutingTable.new id) ∧ TableShape (RoutingTable.new id) := by
    constructor
    · intro r c kv hcell
      simp [RoutingTable.new] at hcell
    · intro row hrow
      simp [RoutingTable.new] at hrow
  obtain ⟨hi, hs⟩ := hstep ops (RoutingTable.new id) hbase
  refine ⟨hi, hs, ?_⟩
  intro rt
  exact insLoop_self rt v 16 0 (by omega)

/-- C8, witness: the invariant instantiated on a concrete table built by
one insert, checked on its written cell. -/
theorem routing_table_invariant_witness :
    (applyOps (RoutingTable.new 0) [TOp.ins (2 ^ 60) 7]).table.getD 0 [] =
      ((List.replicate 16 (none : Option KV)).set 1 (some ⟨2 ^ 60, 7⟩)) ∧
    TableInv (applyOps (RoutingTable.new 0) [TOp.ins (2 ^ 60) 7]) :=
  ⟨by decide, (routing_table_invariant 0 [TOp.ins (2 ^ 60) 7] 0).1⟩

/-! ## C4: routing-table route -/

theorem get_num_matched_digits_eq (a b : Nat) :
    get_num_matched_digits a b = some (min (lcp16 a b) 15) := by
  have h := lcpFrom_spec a b 16 0 (by omega)
  simpa [get_num_matched_digits, lcp16, List.range_eq_range'] using h

theorem closerStep_eq_none (id : Nat) (acc e : Option KV) :
    closerStep id acc e = none ↔ acc = none ∧ e = none := by
  cases e with
  | none => cases acc <;> simp [closerStep]
  | some e0 =>
    cases acc with
    | none => simp [closerStep]
    | some c => simp only [closerStep]; split <;> simp

theorem closerStep_mem (id : Nat) (acc e : Option KV) (kv : KV)
    (h : closerStep id acc e = some kv) : acc = some kv ∨ e = some kv := by
  cases e with
  | none => exact Or.inl h
  | some e0 =>
    cases acc with
    | none => exact Or.inr h
    | some c =>
      simp only [closerStep] at h
      split at h
      · exact Or.inr h
      · exact Or.inl h

theorem closerStep_acc_min (id : Nat) (acc e : Option KV) (c : KV) (h : acc = some c) :
    ∃ c2, closerStep id acc e = some c2 ∧ distance c2.key id ≤ distance c.key id := by
  subst h
  cases e with
  | none => exact ⟨c, rfl, le_refl _⟩
  | some e0 =>
    simp only [closerStep]
    by_cases hlt : distance e0.key id < distance c.key id
    · exact ⟨e0, by rw [if_pos hlt], le_of_lt hlt⟩
    · exact ⟨c, by rw [if_neg hlt], le_refl _⟩

theorem closerStep_entry_min (id : Nat) (acc e : Option KV) (e0 : KV) (h : e = some e0) :
    ∃ c2, closerStep id acc e = some c2 ∧ distance c2.key id ≤ distance e0.key id := by
  subst h
  cases acc with
  | none => exact ⟨e0, rfl, le_refl _⟩
  | some c =>
    simp only [closerStep]
    by_cases hlt : distance e0.key id < distance c.key id
    · exact ⟨e0, by rw [if_pos hlt], le_refl _⟩
    · exact ⟨c, by rw [if_neg hlt], Nat.le_of_not_lt hlt⟩

theorem foldl_closer_none (id : Nat) :
    ∀ (row : List (Option KV)) (acc : Option KV),
      row.foldl (closerStep id) acc = none ↔ acc = none ∧ ∀ e ∈ row, e = none := by
  intro row
  induction row with
  | nil => intro acc; simp
  | cons e rest ih =>
    intro acc
    rw [List.foldl_cons, ih (closerStep id acc e)]
    constructor
    · rintro ⟨h1, h2⟩
      obtain ⟨ha, he⟩ := (closerStep_eq_none id acc e).mp h1
      refine ⟨ha, ?_⟩
      intro x hx
      rcases List.mem_cons.mp hx with h | h
      · rw [h]; exact he
      · exact h2 x h
    · rintro ⟨ha, hall⟩
      refine ⟨(closerStep_eq_none id acc e).mpr
        ⟨ha, hall e (List.mem_cons_self e rest)⟩, ?_⟩
      intro x hx
      exact hall x (List.mem_cons_of_mem e hx)

theorem foldl_closer_some (id : Nat) :
    ∀ (row : List (Option KV)) (acc : Option KV) (kv : KV),
      row.foldl (closerStep id) acc = some kv →
        (acc = some kv ∨ some kv ∈ row) ∧
        (∀ c, acc = some c → distance kv.key id ≤ distance c.key id) ∧
        (∀ kv2, some kv2 ∈ row → distance kv.key id ≤ distance kv2.key id) := by
  intro row
  induction row with
  | nil =>
    intro acc kv h
    rw [List.foldl_nil] at h
    refine ⟨Or.inl h, ?_, by simp⟩
    intro c hc
    rw [h] at hc
    cases hc
    exact le_refl _
  | cons e rest ih =>
    intro acc kv h
    rw [List.foldl_cons] at h
    obtain ⟨hmem, hacc, hrest⟩ := ih (closerStep id acc e) kv h
    refine ⟨?_, ?_, ?_⟩
    · rcases hmem with hstep | hmem
      · rcases closerStep_mem id acc e kv hstep with h1 | h1
        · exact Or.inl h1
        · exact Or.inr (h1 ▸ List.mem_cons_self e rest)
      · exact Or.inr (List.mem_cons_of_mem e hmem)
    · intro c hc
      obtain ⟨c2, hc2, hle⟩ := closerStep_acc_min id acc e c hc
      exact le_trans (hacc c2 hc2) hle
    · intro kv2 hkv2
      rcases List.mem_cons.mp hkv2 with h1 | h1
      · obtain ⟨c2, hc2, hle⟩ := closerStep_entry_min id acc e kv2 h1.symm
        exact le_trans (hacc c2 hc2) hle
      · exact hrest kv2 h1

theorem rowClosest_none_iff (id : Nat) (row : List (Option KV)) :
    rowClosest id row = none ↔ ∀ e ∈ row, e = none := by
  rw [rowClosest, foldl_closer_none]
  simp

theorem rowClosest_some (id : Nat) (row : List (Option KV)) (kv : KV)
    (h : rowClosest id row = some kv) :
    some kv ∈ row ∧ ∀ kv2, some kv2 ∈ row → distance kv.key id ≤ distance kv2.key id := by
  obtain ⟨hmem, _, hmin⟩ := foldl_closer_some id row none kv h
  rcases hmem with h1 | h1
  · exact Option.noConfusion h1
  · exact ⟨h1, hmin⟩

/-- C4, counterexample.  The claim says route(key, m) returns None whenever
max(shared-prefix length, m) is at least the number of materialized rows.
With id = 0 and a single materialized row (an entry at row 0, column 1),
routing key = 0 (which shares all digits with id, so r = max(15, 0) = 15 ≥
1 row) does not return None: the code clamps the row index to the last
materialized row (min(15, 0) = 0) and answers from row 0's fallback scan. -/
theorem routing_table_route_claim_cx :
    ((RoutingTable.new 0).insert (2 ^ 60) 7).table.length = 1 ∧
    lcp16 0 0 = 16 ∧
    ((RoutingTable.new 0).insert (2 ^ 60) 7).route 0 0 = some (some (7, 0)) := by
  refine ⟨by decide, by decide, by decide⟩

/-- The embedded route reproduces the source's test_route. -/
theorem route_embedding_matches_source_test :
    (((((RoutingTable.new 0xFEDCBA9876543210).insert
          0xFEDCBA0000000000 1).insert
          0xFEDCBA1111111111 2).insert
          0xFEDCBA2111111111 3).insert
          0xFEDCBA4000000000 4).route 0xFEDCBA0111111111 0 = some (some (1, 6)) ∧
    (((((RoutingTable.new 0xFEDCBA9876543210).insert
          0xFEDCBA0000000000 1).insert
          0xFEDCBA1111111111 2).insert
          0xFEDCBA2111111111 3).insert
          0xFEDCBA4000000000 4).route 0xFEDCBA0111111111 6 = some (some (1, 6)) ∧
    (((((RoutingTable.new 0xFEDCBA9876543210).insert
          0xFEDCBA0000000000 1).insert
          0xFEDCBA1111111111 2).insert
          0xFEDCBA2111111111 3).insert
          0xFEDCBA4000000000 4).route 0xFEDCBA3333333333 0 = some (some (4, 6)) := by
  refine ⟨by decide, by decide, by decide⟩

/-- C4, amended.  Let m = min(lcp(id, key), 15) be the matched-digit count
and n the number of materialized rows.  With n = 0 the call panics (the
usize expression n − 1 underflows) instead of returning None.  With n > 0:
if n − 1 < min_matched_digits, route returns None; otherwise let
r = min(m, n − 1) — the matched count CLAMPED to the last materialized row,
not rejected when m ≥ n.  If r < min_matched_digits, route returns None.
Otherwise, if cell (r, digit_r(key)) is occupied route returns that entry
with matched = r; else if row r is all empty it returns None; else it
returns an entry of row r whose id minimizes Ring64 distance to the
table's own id, with matched = r. -/
theorem routing_table_route_charact (rt : RoutingTable) (key minMatched : Nat) :
    (rt.table.length = 0 → rt.route key minMatched = none) ∧
    (0 < rt.table.length → rt.table.length - 1 < minMatched →
      rt.route key minMatched = some none) ∧
    (0 < rt.table.length → minMatched ≤ rt.table.length - 1 →
      routeRowIndex rt key < minMatched → rt.route key minMatched = some none) ∧
    (0 < rt.table.length → minMatched ≤ routeRowIndex rt key →
      (∀ kv, (rt.table.getD (routeRowIndex rt key) []).getD
          (hexDigit key (routeRowIndex rt key)) none = some kv →
        rt.route key minMatched = some (some (kv.value, routeRowIndex rt key))) ∧
      ((rt.table.getD (routeRowIndex rt key) []).getD
          (hexDigit key (routeRowIndex rt key)) none = none →
        ((∀ e ∈ rt.table.getD (routeRowIndex rt key) [], e = none) →
          rt.route key minMatched = some none) ∧
        (∀ kv0, some kv0 ∈ rt.table.getD (routeRowIndex rt key) [] →
          ∃ kv, some kv ∈ rt.table.getD (routeRowIndex rt key) [] ∧
            (∀ kv2, some kv2 ∈ rt.table.getD (routeRowIndex rt key) [] →
              distance kv.key rt.id ≤ distance kv2.key rt.id) ∧
            rt.route key minMatched = some (some (kv.value, routeRowIndex rt key))))) := by
  have hmd := get_num_matched_digits_eq rt.id key
  refine ⟨?_, ?_, ?_, ?_⟩
  · intro h0
    rw [RoutingTable.route, if_pos h0]
  · intro hpos hlt
    rw [RoutingTable.route, if_neg (by omega), if_pos hlt]
  · intro hpos hle hlt2
    unfold routeRowIndex at hlt2
    rw [RoutingTable.route, if_neg (by omega), if_neg (by omega), hmd, Option.some_bind,
      if_pos hlt2]
  · intro hpos hge
    have hge1 : minMatched ≤ min (min (lcp16 rt.id key) 15) (rt.table.length - 1) := by
      unfold routeRowIndex at hge
      exact hge
    have hge2 : minMatched ≤ rt.table.length - 1 := by omega
    constructor
    · intro kv hcell
      unfold routeRowIndex at hcell ⊢
      rw [RoutingTable.route, if_neg (by omega), if_neg (by omega), hmd, Option.some_bind,
        if_neg (by omega)]
      simp only [hcell]
    · intro hcellnone
      unfold routeRowIndex at hcellnone
      constructor
      · intro hallnone
        unfold routeRowIndex at hallnone
        rw [RoutingTable.route, if_neg (by omega), if_neg (by omega), hmd, Option.some_bind,
          if_neg (by omega)]
        simp only [hcellnone]
        rw [(rowClosest_none_iff rt.id _).mpr hallnone]
        rfl
      · intro kv0 hkv0
        unfold routeRowIndex at hkv0 ⊢
        have hne : ¬ rowClosest rt.id
            (rt.table.getD (min (min (lcp16 rt.id key) 15) (rt.table.length - 1)) [])
            = none := by
          rw [rowClosest_none_iff]
          intro hall
          have := hall (some kv0) hkv0
          exact Option.noConfusion this
        cases hkv : rowClosest rt.id
            (rt.table.getD (min (min (lcp16 rt.id key) 15) (rt.table.length - 1)) []) with
        | none => exact absurd hkv hne
        | some kv =>
          obtain ⟨hmem, hmin⟩ := rowClosest_some rt.id _ kv hkv
          refine ⟨kv, hmem, hmin, ?_⟩
          rw [RoutingTable.route, if_neg (by omega), if_neg (by omega), hmd, Option.some_bind,
            if_neg (by omega)]
          simp only [hcellnone, hkv]
          rfl

/-- C4, witness: the amended characterization at the concrete table with
one entry in row 0 column 1, key with first digit 1, cell occupied. -/
theorem routing_table_route_charact_witness :
    ((RoutingTable.new 0).insert (2 ^ 60) 7).route (2 ^ 60 + 5) 0 = some (some (7, 0)) := by
  have h := routing_table_route_charact ((RoutingTable.new 0).insert (2 ^ 60) 7) (2 ^ 60 + 5) 0
  exact (h.2.2.2 (by decide) (by decide)).1 ⟨2 ^ 60, 7⟩ (by decide)

/-! ## C5: handler gating -/

/-- C5, counterexample.  The claim says all seven handlers (join, query,
announce-arrival, fix-leaf-set, get-state, get-table-entry, transfer-keys)
wait for RoutingRequests before touching peer state.  The transfer_keys
handler never calls block_until_routing_requests: its spawned task
write-locks the store immediately, so the seven-way conjunction is
false. -/
theorem service_gate_claim_cx :
    ¬ (gatedBeforeAccess joinHandler ∧ gatedBeforeAccess queryHandler ∧
       gatedBeforeAccess announceArrivalHandler ∧ gatedBeforeAccess fixLeafSetHandler ∧
       gatedBeforeAccess getNodeStateHandler ∧ gatedBeforeAccess getNodeTableEntryHandler ∧
       gatedBeforeAccess transferKeysHandler) := by
  intro h
  obtain ⟨j, hj, _⟩ := h.2.2.2.2.2.2 0 (by decide) (by decide)
  omega

/-- C5, amended.  Six of the seven handlers — join, query,
announce-arrival, fix-leaf-set, get-state (GetNodeState) and
get-table-entry — wait until the peer's state is RoutingRequests before
reading or mutating peer state; transfer-keys does NOT: it reads and
mutates the store with no gate. -/
theorem service_gate_charact :
    gatedBeforeAccess joinHandler ∧ gatedBeforeAccess queryHandler ∧
    gatedBeforeAccess announceArrivalHandler ∧ gatedBeforeAccess fixLeafSetHandler ∧
    gatedBeforeAccess getNodeStateHandler ∧ gatedBeforeAccess getNodeTableEntryHandler ∧
    ¬ gatedBeforeAccess transferKeysHandler := by
  have h2 : gatedBeforeAccess [SAction.gate, SAction.readData] := by
    intro i hi hacc
    match i, hi with
    | 0, _ => exact absurd hacc (by decide)
    | 1, _ => exact ⟨0, by omega, rfl⟩
  refine ⟨h2, h2, ?_, h2, h2, h2, ?_⟩
  · intro i hi hacc
    match i, hi with
    | 0, _ => exact absurd hacc (by decide)
    | 1, _ => exact absurd hacc (by decide)
    | 2, _ => exact ⟨0, by omega, rfl⟩
    | 3, _ => exact absurd hacc (by decide)
  · intro h
    obtain ⟨j, hj, _⟩ := h 0 (by decide) (by decide)
    omega

/-- C5, witness: the gating fact for the join handler, projected from the
amended theorem. -/
theorem service_gate_charact_witness : gatedBeforeAccess joinHandler :=
  service_gate_charact.1

/-! ## C6: key handoff -/

theorem transfer_keys_foldl_mem (sendOk : Nat → Bool) :
    ∀ (entries st : List (Nat × List Nat)) (k : Nat) (v : List Nat),
      (k, v) ∈ entries.foldl
          (fun st e => if sendOk e.1 then st.filter (fun x => x.1 != e.1) else st) st ↔
        (k, v) ∈ st ∧ ∀ e ∈ entries, sendOk e.1 = true → k ≠ e.1 := by
  intro entries
  induction entries with
  | nil => intro st k v; simp
  | cons e rest ih =>
    intro st k v
    rw [List.foldl_cons, ih]
    by_cases hs : sendOk e.1 = true
    · rw [if_pos hs]
      simp only [List.mem_filter]
      constructor
      · rintro ⟨⟨hmem, hne⟩, hall⟩
        refine ⟨hmem, ?_⟩
        intro e2 he2 hs2
        rcases List.mem_cons.mp he2 with h | h
        · subst h
          simpa using hne
        · exact hall e2 h hs2
      · rintro ⟨hmem, hall⟩
        refine ⟨⟨hmem, ?_⟩, ?_⟩
        · simpa using hall e (List.mem_cons_self e rest) hs
        · intro e2 he2 hs2
          exact hall e2 (List.mem_cons_of_mem e he2) hs2
    · rw [if_neg hs]
      constructor
      · rintro ⟨hmem, hall⟩
        refine ⟨hmem, ?_⟩
        intro e2 he2 hs2
        rcases List.mem_cons.mp he2 with h | h
        · subst h
          exact absurd hs2 hs
        · exact hall e2 h hs2
      · rintro ⟨hmem, hall⟩
        refine ⟨hmem, ?_⟩
        intro e2 he2 hs2
        exact hall e2 (List.mem_cons_of_mem e he2) hs2

/-- C6, counterexample.  The claim says the serving peer R streams exactly
the stored keys for which is_in_range(L.id, P.id, key) fails, L being R's
counter-clockwise neighbor (the peer the joining id P lands after).  Take
L.id = 100, P.id = 150, R.id = 200, and a key 250 stored at R.
is_in_range(100, 150, 250) is false, so the claim says 250 is streamed;
the code filters with its OWN id — is_in_range(200, 150, 250) holds — and
streams nothing. -/
theorem transfer_keys_claim_cx :
    (transfer_keys_exec 200 150 [(250, [1])] (fun _ => true)).1 = [] ∧
    ([(250, [1])].filter (fun e => !(is_in_range 100 150 e.1))) = [(250, [1])] ∧
    is_in_range 100 200 150 = true := by
  refine ⟨by decide, by decide, by decide⟩

/-- C6, amended.  When TransferKeys for requesting id P.id runs at the
serving peer R, R streams exactly the stored keys for which
is_in_range(R.id, P.id, key) — with R's OWN id as the start of the range,
not its counter-clockwise neighbor's — does not hold at scan time; R
deletes a key from its store iff it was streamed and its send succeeded,
so a key whose send fails is retained. -/
theorem transfer_keys_charact (prevId nodeId : Nat) (store : List (Nat × List Nat))
    (sendOk : Nat → Bool) (k : Nat) (v : List Nat) :
    ((k, v) ∈ (transfer_keys_exec prevId nodeId store sendOk).1 ↔
      (k, v) ∈ store ∧ is_in_range prevId nodeId k = false) ∧
    ((k, v) ∈ (transfer_keys_exec prevId nodeId store sendOk).2 ↔
      (k, v) ∈ store ∧ ¬ (is_in_range prevId nodeId k = false ∧ sendOk k = true)) ∧
    ((k, v) ∈ store → sendOk k = false →
      (k, v) ∈ (transfer_keys_exec prevId nodeId store sendOk).2) := by
  have hmem1 : (k, v) ∈ (transfer_keys_exec prevId nodeId store sendOk).1 ↔
      (k, v) ∈ store ∧ is_in_range prevId nodeId k = false := by
    simp [transfer_keys_exec, List.mem_filter]
  have hmem2 : (k, v) ∈ (transfer_keys_exec prevId nodeId store sendOk).2 ↔
      (k, v) ∈ store ∧ ¬ (is_in_range prevId nodeId k = false ∧ sendOk k = true) := by
    rw [show (transfer_keys_exec prevId nodeId store sendOk).2 =
        (store.filter (fun e => !(is_in_range prevId nodeId e.1))).foldl
          (fun st e => if sendOk e.1 then st.filter (fun x => x.1 != e.1) else st)
          store from rfl,
      transfer_keys_foldl_mem]
    constructor
    · rintro ⟨hmem, hall⟩
      refine ⟨hmem, ?_⟩
      rintro ⟨hrange, hsend⟩
      exact hall (k, v) (List.mem_filter.mpr ⟨hmem, by simp [hrange]⟩) hsend rfl
    · rintro ⟨hmem, hnot⟩
      refine ⟨hmem, ?_⟩
      intro e he hsend
      intro hk
      have hef := List.mem_filter.mp he
      apply hnot
      refine ⟨?_, ?_⟩
      · have := hef.2
        subst hk
        simpa using this
      · subst hk
        exact hsend
  refine ⟨hmem1, hmem2, ?_⟩
  intro hst hsf
  rw [hmem2]
  refine ⟨hst, ?_⟩
  rintro ⟨_, hsend⟩
  rw [hsf] at hsend
  exact Bool.noConfusion hsend

/-- C6, witness: the amended characterization at the counterexample's
store: key 250 falls inside [R.id, P.id) on the ring, is not streamed, and
stays in the store. -/
theorem transfer_keys_charact_witness :
    (250, [1]) ∈ (transfer_keys_exec 200 150 [(250, [1])] (fun _ => true)).2 ↔
      ((250, [1]) ∈ [(250, [1])] ∧
        ¬ (is_in_range 200 150 250 = false ∧ (fun _ : Nat => true) 250 = true)) :=
  (transfer_keys_charact 200 150 [(250, [1])] (fun _ => true) 250 [1]).2.1

/-! ## C7: terminal join response -/

/-- C7: when the join request for id P reaches the terminal hop (the
node's leaf-set owner lookup for P's id names the node itself), the
JoinResponse carries the node's id and public address, the request's hop
count, the accumulated routing table, and the node's leaf set from which
the furthest counter-clockwise entry (the head of the centered order) has
been removed if and only if the leaf set is full. -/
theorem join_terminal_response_charact (selfId selfAddr : Nat) (leaf : ILeafSet)
    (reqId reqHops : Nat) (accTable : List NodeEntry) (node : NodeEntry)
    (howner : leaf.get reqId = some node) (hself : node.id = selfId) :
    ∃ resp, join_service_dispatch selfId selfAddr leaf reqId reqHops accTable = some resp ∧
      resp.id = selfId ∧ resp.addr = selfAddr ∧ resp.hops = reqHops ∧
      resp.routingTable = accTable ∧
      (leaf.isFull = true →
        resp.leafSet = leaf.entries.tail ∧
        resp.leafSet.length + 1 = 2 * leaf.k + 1) ∧
      (leaf.isFull = false → resp.leafSet = leaf.entries) := by
  refine ⟨join_service_terminal selfId selfAddr leaf reqHops accTable, ?_, rfl, rfl, rfl,
    rfl, ?_, ?_⟩
  · simp only [join_service_dispatch, howner, if_pos hself]
  · intro hfull
    have hlen : leaf.entries.length = 2 * leaf.k + 1 := by
      simpa [ILeafSet.isFull] using hfull
    cases hent : leaf.entries with
    | nil =>
      rw [hent] at hlen
      simp at hlen
    | cons h t =>
      have hfccw : leaf.getFurthestCounterClockwiseNeighbor = some h := by
        simp [ILeafSet.getFurthestCounterClockwiseNeighbor, hfull, hent]
      have hrm : (leaf.removeId h.id).entries = t := by
        simp only [ILeafSet.removeId, hent]
        rw [List.eraseP_cons_of_pos (by simp)]
      have hresp : (join_service_terminal selfId selfAddr leaf reqHops accTable).leafSet
          = t := by
        simp only [join_service_terminal, if_pos hfull, hfccw, Option.getD_some, hrm]
      refine ⟨?_, ?_⟩
      · simp [hresp, hent]
      · rw [hresp]
        rw [hent] at hlen
        simp only [List.length_cons] at hlen
        omega
  · intro hnf
    simp [join_service_terminal, hnf]

/-- C7, witness: the terminal response at a concrete full leaf set
(k = 1, entries [10, 20, 30], self = 20) for joining id 25: the furthest
counter-clockwise entry 10 is removed. -/
theorem join_terminal_response_charact_witness :
    ∃ resp, join_service_dispatch 20 2 ⟨1, [⟨10, 1⟩, ⟨20, 2⟩, ⟨30, 3⟩]⟩ 25 4 [⟨40, 4⟩]
        = some resp ∧
      resp.id = 20 ∧ resp.leafSet = [⟨20, 2⟩, ⟨30, 3⟩] ∧ resp.routingTable = [⟨40, 4⟩] := by
  obtain ⟨resp, h1, h2, h3, h4, h5, h6, h7⟩ :=
    join_terminal_response_charact 20 2 ⟨1, [⟨10, 1⟩, ⟨20, 2⟩, ⟨30, 3⟩]⟩ 25 4 [⟨40, 4⟩]
      ⟨20, 2⟩ (by decide) rfl
  exact ⟨resp, h1, h2, by rw [(h6 (by decide)).1]; rfl, h5⟩

/-! ## C10: announce-arrival frame effect -/

theorem takeWhile_range'_spec (p : Nat → Bool) :
    ∀ m s, (∀ j, j < ((List.range' s m).takeWhile p).length → p (s + j) = true) ∧
      (((List.range' s m).takeWhile p).length < m →
        p (s + ((List.range' s m).takeWhile p).length) = false) := by
  intro m
  induction m with
  | zero =>
    intro s
    constructor
    · intro j hj
      simp at hj
    · intro h
      simp at h
  | succ m ih =>
    intro s
    rw [List.range'_succ, List.takeWhile_cons]
    by_cases hp : p s = true
    · rw [if_pos hp]
      constructor
      · intro j hj
        simp only [List.length_cons] at hj
        cases j with
        | zero => simpa using hp
        | succ j =>
          have h1 := (ih (s + 1)).1 j (by omega)
          rw [show s + (j + 1) = s + 1 + j by omega]
          exact h1
      · intro hlen
        simp only [List.length_cons] at hlen ⊢
        have h2 := (ih (s + 1)).2 (by omega)
        rw [show s + (((List.range' (s + 1) m).takeWhile p).length + 1)
            = s + 1 + ((List.range' (s + 1) m).takeWhile p).length by omega]
        exact h2
    · rw [if_neg hp]
      constructor
      · intro j hj
        simp at hj
      · intro _
        simp only [List.length_nil, Nat.add_zero]
        exact Bool.eq_false_iff.mpr hp

theorem lcp16_spec (a b : Nat) :
    (∀ j, j < lcp16 a b → hexDigit a j = hexDigit b j) ∧
    (lcp16 a b < 16 → hexDigit a (lcp16 a b) ≠ hexDigit b (lcp16 a b)) := by
  have h := takeWhile_range'_spec (fun i => hexDigit a i == hexDigit b i) 16 0
  unfold lcp16
  rw [List.range_eq_range']
  constructor
  · intro j hj
    have h1 := h.1 j hj
    simpa using h1
  · intro hlt
    have h2 := h.2 hlt
    simpa using h2

theorem insLoop_writes (rt : RoutingTable) (key value : Nat)
    (hShape : TableShape rt) (hlt : lcp16 rt.id key < 16) :
    ∀ fuel i, 16 - i ≤ fuel → i ≤ lcp16 rt.id key →
      ((insLoop rt key value fuel i).table.getD (lcp16 rt.id key) []).getD
        (hexDigit key (lcp16 rt.id key)) none = some ⟨key, value⟩ := by
  intro fuel
  induction fuel with
  | zero =>
    intro i h1 h2
    omega
  | succ fuel ih =>
    intro i h1 h2
    have hi : i < 16 := by omega
    rw [insLoop_succ rt key value fuel i hi]
    by_cases heq : i = lcp16 rt.id key
    · have hdiff : hexDigit rt.id i ≠ hexDigit key i := by
        have hd := (lcp16_spec rt.id key).2 hlt
        rw [← heq] at hd
        exact hd
      rw [if_pos hdiff, ← heq]
      have higrow : i < (growTable rt.table (i + 1)).length := by
        rw [growTable_length]
        omega
      rw [getD_set_self _ _ _ _ higrow]
      have hrowlen : ((growTable rt.table (i + 1)).getD i []).length = 16 :=
        growTable_row_len rt.table (i + 1) i hShape (by omega)
      rw [getD_set_self _ _ _ _ (by rw [hrowlen]; exact hexDigit_lt key i)]
    · have heqd : hexDigit rt.id i = hexDigit key i :=
        (lcp16_spec rt.id key).1 i (by omega)
      rw [if_neg (by simp [heqd])]
      exact ih (i + 1) (by omega) (by omega)

/-- C10: the announce-arrival handler always performs the routing-table
insert for the announcing peer — and when the announcer's id differs from
the recipient's in some digit, the announcer really lands in the table
cell addressed by the shared-prefix length and its next digit — but
inserts into the leaf set only when the leaf set currently returns a
responsible entry for the announcer's id and that entry's id differs from
the announcer's; otherwise (no responsible entry, or the announcer is
already the responsible entry) the leaf set is left unchanged. -/
theorem announce_arrival_frame (leaf : ILeafSet) (table : RoutingTable)
    (reqId reqAddr : Nat) :
    ((announce_arrival_exec leaf table reqId reqAddr).2 = table.insert reqId reqAddr) ∧
    (∀ entry, leaf.get reqId = some entry → entry.id ≠ reqId →
      (announce_arrival_exec leaf table reqId reqAddr).1 = leaf.insert reqId reqAddr) ∧
    (leaf.get reqId = none →
      (announce_arrival_exec leaf table reqId reqAddr).1 = leaf) ∧
    (∀ entry, leaf.get reqId = some entry → entry.id = reqId →
      (announce_arrival_exec leaf table reqId reqAddr).1 = leaf) ∧
    (TableShape table → lcp16 table.id reqId < 16 →
      ((announce_arrival_exec leaf table reqId reqAddr).2.table.getD
          (lcp16 table.id reqId) []).getD (hexDigit reqId (lcp16 table.id reqId)) none
        = some ⟨reqId, reqAddr⟩) := by
  refine ⟨rfl, ?_, ?_, ?_, ?_⟩
  · intro entry hsome hne
    simp only [announce_arrival_exec, hsome, if_pos hne]
  · intro hnone
    simp only [announce_arrival_exec, hnone]
  · intro entry hsome heq
    simp only [announce_arrival_exec, hsome,
      if_neg (show ¬ entry.id ≠ reqId from fun h => h heq)]
  · intro hShape hlt
    exact insLoop_writes table reqId reqAddr hShape hlt 16 0 (by omega) (by omega)

/-- C10, witness: the frame effect at a concrete leaf set (entries
[10, 20, 30], self = 20) and an empty routing table with id 0, announcer
id 25: the leaf set takes the insert (owner 20 differs from 25) and the
announcer lands in table cell (0, digit 0 of 25). -/
theorem announce_arrival_frame_witness :
    (announce_arrival_exec ⟨1, [⟨10, 1⟩, ⟨20, 2⟩, ⟨30, 3⟩]⟩ (RoutingTable.new 0) 25 5).1
      = ILeafSet.insert ⟨1, [⟨10, 1⟩, ⟨20, 2⟩, ⟨30, 3⟩]⟩ 25 5 ∧
    ((announce_arrival_exec ⟨1, [⟨10, 1⟩, ⟨20, 2⟩, ⟨30, 3⟩]⟩
          (RoutingTable.new 0) 25 5).2.table.getD (lcp16 0 25) []).getD
        (hexDigit 25 (lcp16 0 25)) none = some ⟨25, 5⟩ := by
  have h := announce_arrival_frame ⟨1, [⟨10, 1⟩, ⟨20, 2⟩, ⟨30, 3⟩]⟩ (RoutingTable.new 0) 25 5
  exact ⟨h.2.1 ⟨20, 2⟩ (by decide) (by decide),
    h.2.2.2.2 (by intro row hrow; simp [RoutingTable.new] at hrow) (by decide)⟩

end PastryVerify
